import Mathlib

/-!
Verification development for the torch_xla IR graph core (`torch_xla/csrc/ir.cpp`).

The C++ source is shallowly embedded as follows:
* machine hash values (`xla::hash_t`) are `Nat`; the external combiner
  `xla::util::HashCombine` (xla_client, outside the embedded sources) is
  modelled from the spec as an order-sensitive injective pairing;
* the node graph is a partial map `NodeId → Option Node`, with the raw
  pointers of the C++ replaced by node identifiers;
* the fatal `XLA_CHECK` precondition failures are modelled as `Option`
  results where a claim is about the failure itself, and as theorem
  hypotheses elsewhere;
* thread-local state (scope stack, frontend-attribute map) is passed
  explicitly as values, one value per thread.
-/

namespace TorchXlaIR

/-- Modelled from the spec: `xla::util::HashCombine` lives in the xla_client
library, which is not among the embedded sources.  The spec describes the
combiner as defining structural identity and as order-sensitive by design
("swapping operand order changes the hash, by design"), so it is modelled as
an injective pairing on `Nat`. -/
def HashCombine (a b : Nat) : Nat := Nat.pair a b

/-- Modelled from the spec: `xla::util::StringHash` (used by `OpKind::hash`)
is not among the embedded sources; modelled as a fold of the character codes
through the hash combiner. -/
def StringHash (s : String) : Nat :=
  s.data.foldl (fun h c => HashCombine h c.toNat) 0

/-- `OpKind::hash()` from ir.cpp: the hash of the qualified operator name.
`OpKind` itself is an interned `c10::Symbol`; modelled by its name string. -/
def OpKindHash (op : String) : Nat := StringHash op

/-! ## Scope stack (ir.cpp anonymous namespace)

`ScapeEntry`, `ScopeContext`, `PushScope`, `PopScope`, `GetCurrentScope`
are embedded directly; the thread-local `g_scope_context` becomes an explicit
`ScopeContext` value threaded through the functions. -/

/-- `ScapeEntry` from ir.cpp (sic): a composed scope name plus the saved
next-sibling id to restore on pop. -/
structure ScapeEntry where
  name : String
  saved_next_id : Nat
deriving DecidableEq

/-- `ScopeContext` from ir.cpp: the per-thread stack of scopes and the
next fresh id for the current nesting level. -/
structure ScopeContext where
  scopes : List ScapeEntry
  next_id : Nat
deriving DecidableEq

/-- The initial value of the thread-local `g_scope_context`
(empty stack, `next_id = 1`). -/
def initScopeContext : ScopeContext := { scopes := [], next_id := 1 }

/-- `PushScope` from ir.cpp: composes `"<name>.<id>"` with the current
`next_id`, records `next_id + 1` as the id to restore on pop, and resets
`next_id` to 1 for the newly opened nesting level. -/
def PushScope (name : String) (c : ScopeContext) : ScopeContext :=
  { scopes := c.scopes ++ [{ name := name ++ "." ++ toString c.next_id,
                             saved_next_id := c.next_id + 1 }],
    next_id := 1 }

/-- `PopScope` from ir.cpp: restores `next_id` from the top entry and pops
it.  The `XLA_CHECK(!scopes.empty())` fatal precondition is modelled as
`none`. -/
def PopScope (c : ScopeContext) : Option ScopeContext :=
  match c.scopes.getLast? with
  | none => none
  | some e => some { scopes := c.scopes.dropLast, next_id := e.saved_next_id }

/-- `GetCurrentScope` from ir.cpp: joins all composed scope names with
`"/"`. -/
def GetCurrentScope (c : ScopeContext) : String :=
  c.scopes.foldl
    (fun scope e => if scope.isEmpty then scope ++ e.name else scope ++ "/" ++ e.name)
    ""

/-! ## Frontend attributes (ir.cpp)

The thread-local `g_frontend_attribute_context.attributes`
(`std::unordered_map<std::string, std::string>`) is modelled as an
association list with unique keys; map iteration order is irrelevant to the
embedded code. -/

/-- The per-thread frontend attribute map. -/
abbrev AttrMap := List (String × String)

/-- `unordered_map::find` on the attribute map. -/
def attrFind (m : AttrMap) (k : String) : Option String :=
  (m.find? (fun p => p.1 = k)).map (·.2)

/-- `unordered_map::erase(iterator)` on the attribute map: removes the
(unique) entry with the given key. -/
def attrErase (m : AttrMap) (k : String) : AttrMap :=
  m.eraseP (fun p => p.1 = k)

/-- Assignment through a found iterator (`found->second = v`): replaces the
value stored under key `k`. -/
def attrAssign (m : AttrMap) (k v : String) : AttrMap :=
  m.map (fun p => if p.1 = k then (p.1, v) else p)

/-- `unordered_map::emplace`: inserts `(k, v)` only when `k` is absent;
leaves the map unchanged otherwise. -/
def attrEmplace (m : AttrMap) (k v : String) : AttrMap :=
  if (attrFind m k).isSome then m else (k, v) :: m

/-- `PythonAddFrontendAttribute` from ir.cpp: a plain `emplace` into the
calling thread's attribute map. -/
def PythonAddFrontendAttribute (key value : String) (m : AttrMap) : AttrMap :=
  attrEmplace m key value

/-- `PythonRemoveFrontendAttribute` from ir.cpp. -/
def PythonRemoveFrontendAttribute (key : String) (m : AttrMap) : AttrMap :=
  attrErase m key

/-- The saved state of a `FrontendAttributePusher`: the derived key and the
remembered previous value (`previous_value_` default-constructs to `""`). -/
structure FrontendAttributePusher where
  key_ : String
  previous_value_ : String
deriving DecidableEq

/-- `FrontendAttributePusher::FrontendAttributePusher` from ir.cpp:
derives the key (namespaced by the current attribute count when
`prefix_depth` is set), remembers any previous value, and then either
overwrites the existing entry, erases it when the incoming value is empty,
or emplaces the incoming value when the key was absent.  Returns the saved
pusher state together with the updated map. -/
def faPusherAcquire (key value : String) (prefix_depth : Bool) (m : AttrMap) :
    FrontendAttributePusher × AttrMap :=
  let key_ := if prefix_depth then toString m.length ++ "." ++ key else key
  match attrFind m key_ with
  | some prev =>
      if value = "" then (⟨key_, prev⟩, attrErase m key_)
      else (⟨key_, prev⟩, attrAssign m key_ value)
  | none => (⟨key_, ""⟩, (key_, value) :: m)

/-- `FrontendAttributePusher::~FrontendAttributePusher` from ir.cpp:
re-checks presence of the derived key and restores the remembered previous
value (or removes/re-inserts the key as appropriate). -/
def faPusherRelease (p : FrontendAttributePusher) (m : AttrMap) : AttrMap :=
  match attrFind m p.key_ with
  | some _ =>
      if p.previous_value_ = "" then attrErase m p.key_
      else attrAssign m p.key_ p.previous_value_
  | none =>
      if p.previous_value_ ≠ "" then (p.key_, p.previous_value_) :: m else m

/-! ## Shapes and `Node::shape` (ir.cpp lines 209-215)

`xla::Shape` is opaque to ir.cpp except for `IsTuple`/`tuple_shapes`
and the default constructor `xla::Shape()` (the empty placeholder used by
the lazy constructor); it is modelled by exactly that interface. -/

/-- The part of `xla::Shape` the embedded code observes: either a tuple of
sub-shapes or a non-tuple (array) shape with some dimensions. -/
inductive XShape where
  | arr (dims : List Nat)
  | tuple (subs : List XShape)

/-- The default-constructed `xla::Shape()` placeholder. -/
def emptyXShape : XShape := XShape.arr []

/-- `xla::Shape::IsTuple`. -/
def XShape.IsTuple : XShape → Bool
  | .tuple _ => true
  | .arr _ => false

/-- `xla::Shape::tuple_shapes()` (the full sub-shape list). -/
def XShape.tuple_shapes : XShape → List XShape
  | .tuple subs => subs
  | .arr _ => []

/-! ## The node graph

C++ nodes are heap objects linked by raw pointers (`Node*`) and
reference-counted handles (`NodePtr`); the embedding replaces pointers by
`NodeId` identifiers and keeps all live nodes in a partial map
`Graph := NodeId → Option Node`.  Reference counting is not modelled: node
death is an explicit `destructNode` step (the body of `Node::~Node`). -/

abbrev NodeId := Nat

/-- `Output` from ir.h/ir.cpp: one result slot of a producer node. -/
structure Output where
  node : NodeId
  index : Nat
deriving DecidableEq

/-- `Use` from ir.h/ir.cpp: consumer node, operand slot within the
consumer, and the producer output index being consumed. -/
structure Use where
  node : NodeId
  operand_index : Nat
  index : Nat
deriving DecidableEq

/-- The per-node state of a `Node` object: operator kind (by name), output
count, declared shape, the two hashes, the operand edges
(`operands_` / `operands_as_outputs_`), and the use back-references.
Modelled from the spec for the container of `uses_`: ir.h is not among the
embedded sources; the spec describes uses as "(consumer node + operand slot
+ output index)" tuples "stored in an ordered set, looked up and removed
explicitly", so `uses` is a duplicate-free list of `Use` values (the model
keeps insertion order; the claims proved below do not depend on iteration
order). -/
structure Node where
  op : String
  num_outputs : Nat
  shape : XShape
  node_hash : Nat
  hash : Nat
  operands : List NodeId
  operands_as_outputs : List Output
  uses : List Use

instance : Inhabited Node :=
  ⟨{ op := "", num_outputs := 1, shape := emptyXShape, node_hash := 0, hash := 0,
     operands := [], operands_as_outputs := [], uses := [] }⟩

abbrev Graph := NodeId → Option Node

/-- Point update of the graph map. -/
def setNode (g : Graph) (i : NodeId) (n : Node) : Graph :=
  fun j => if j = i then some n else g j

/-- Point modification of the graph map. -/
def modifyNode (g : Graph) (i : NodeId) (f : Node → Node) : Graph :=
  fun j => if j = i then (g j).map f else g j

/-- `Node::AddUse` (ir.h, modelled from the spec): set insertion of a use
back-reference; a no-op when the use is already recorded. -/
def Node.withUseAdded (n : Node) (u : Use) : Node :=
  { n with uses := if u ∈ n.uses then n.uses else n.uses ++ [u] }

/-- `Node::RemoveUse` (ir.h, modelled from the spec): set removal of a use
back-reference. -/
def Node.withUseRemoved (n : Node) (u : Use) : Node :=
  { n with uses := n.uses.erase u }

/-- Overwriting `operands_as_outputs_[slot]` and `operands_[slot]`
(the two assignments at the end of `Node::ReplaceOperand`). -/
def Node.withOperandSet (n : Node) (slot : Nat) (producer : NodeId) (index : Nat) : Node :=
  { n with operands_as_outputs := n.operands_as_outputs.set slot ⟨producer, index⟩,
           operands := n.operands.set slot producer }

/-- `AddUse` applied to the node named `t` in the graph. -/
def AddUse (g : Graph) (t : NodeId) (u : Use) : Graph :=
  modifyNode g t (Node.withUseAdded · u)

/-- `RemoveUse` applied to the node named `t` in the graph. -/
def RemoveUse (g : Graph) (t : NodeId) (u : Use) : Graph :=
  modifyNode g t (Node.withUseRemoved · u)

/-- `Node::AddOperand` from ir.cpp: appends the operand edge and registers
a use on the operand pointing back at this node at the new slot.
The `XLA_CHECK_LT(index, node->num_outputs())` fatal precondition appears
as a hypothesis of the theorems below. -/
def AddOperand (g : Graph) (self : NodeId) (node : NodeId) (index : Nat) : Graph :=
  match g self with
  | none => g
  | some n =>
      let g1 := setNode g self
        { n with operands := n.operands ++ [node],
                 operands_as_outputs := n.operands_as_outputs ++ [⟨node, index⟩] }
      AddUse g1 node ⟨self, n.operands.length, index⟩

/-- `Node::ReplaceOperand` from ir.cpp: removes this node's use on the old
operand, adds a use on the new operand, and overwrites the stored output and
operand handle.  `XLA_CHECK_LT(index, node->num_outputs())` and the
`.at(operand_no)` bounds check appear as hypotheses of the theorems below. -/
def ReplaceOperand (g : Graph) (self : NodeId) (operand_no : Nat)
    (node : NodeId) (index : Nat) : Graph :=
  match g self with
  | none => g
  | some n =>
      let oldOut : Output := (n.operands_as_outputs.get? operand_no).getD ⟨0, 0⟩
      let oldOperand : NodeId := (n.operands.get? operand_no).getD 0
      let g1 := RemoveUse g oldOperand ⟨self, operand_no, oldOut.index⟩
      let g2 := AddUse g1 node ⟨self, operand_no, index⟩
      modifyNode g2 self (Node.withOperandSet · operand_no node index)

/-- `Node::ReplaceAllUsesWith` from ir.cpp: snapshots the current use set
and redirects each recorded consumer through `ReplaceOperand`.  The C++
iterates the snapshot in `Use::operator<` order; the model iterates the
stored list, and the theorems below hold for any iteration order. -/
def ReplaceAllUsesWith (g : Graph) (self : NodeId) (node : NodeId) (index : Nat) : Graph :=
  match g self with
  | none => g
  | some n =>
      n.uses.foldl (fun gacc u => ReplaceOperand gacc u.node u.operand_index node index) g

/-- The body of `Node::~Node` from ir.cpp (plus removal of the dead node
from the graph map): for every operand slot `i`, removes
`Use(this, i, operands_as_outputs_[i].index)` from `operands_[i]`. -/
def destructNode (g : Graph) (self : NodeId) : Graph :=
  match g self with
  | none => g
  | some n =>
      let g1 := (List.range n.operands_as_outputs.length).foldl
        (fun gacc i => RemoveUse gacc ((n.operands.get? i).getD 0)
          ⟨self, i, ((n.operands_as_outputs.get? i).getD ⟨0, 0⟩).index⟩) g
      fun j => if j = self then none else g1 j

/-- `Node::shape(size_t output_index)` from ir.cpp: the i-th tuple
sub-shape on a tuple-shaped node, the whole shape at index 0 otherwise; the
`XLA_CHECK_EQ(output_index, 0)` fatal precondition (and an out-of-range
tuple index) is modelled as `none`. -/
def nodeShape (n : Node) (output_index : Nat) : Option XShape :=
  if n.shape.IsTuple then n.shape.tuple_shapes.get? output_index
  else if output_index = 0 then some n.shape else none

/-! ## Node hashing (ir.cpp constructors) -/

/-- `Output::hash()` from ir.cpp: `HashCombine(node->hash(), index)`,
with the producer's hash read from the graph. -/
def OutputHashIn (g : Graph) (o : Output) : Nat :=
  HashCombine (((g o.node).map Node.hash).getD 0) o.index

/-- `node_hash_` as computed by the operand-list constructor
(ir.cpp lines 152-159): `HashCombine(op_.hash(), hash_seed)`. -/
def ctorNodeHash (op : String) (hash_seed : Nat) : Nat :=
  HashCombine (OpKindHash op) hash_seed

/-- `hash_` as computed by the operand-list constructor (ir.cpp lines
169-172): the node hash folded with every operand hash in operand order. -/
def ctorFullHash (op : String) (hash_seed : Nat) (operandHashes : List Nat) : Nat :=
  operandHashes.foldl HashCombine (ctorNodeHash op hash_seed)

/-- One iteration of the operand loop in the operand-list constructor
(ir.cpp lines 169-172): `AddOperand(operand.node, operand.index)` followed
by `hash_ = HashCombine(hash_, operand.hash())`. -/
def ctorStep (self : NodeId) (gacc : Graph) (o : Output) : Graph :=
  let gacc1 := AddOperand gacc self o.node o.index
  modifyNode gacc1 self (fun n => { n with hash := HashCombine n.hash (OutputHashIn gacc1 o) })

/-- The operand-list constructor `Node::Node(OpKind, OpList, xla::Shape,
size_t, xla::hash_t)` from ir.cpp lines 152-173, embedded as a graph step
creating node `self`: initializes the fields (in particular
`node_hash_ = HashCombine(op_.hash(), hash_seed)` and `hash_ = node_hash_`),
then links every operand while folding the operand hashes into `hash_`. -/
def constructNode (g : Graph) (self : NodeId) (op : String) (operands : List Output)
    (shape : XShape) (num_outputs : Nat) (hash_seed : Nat) : Graph :=
  let n0 : Node :=
    { op := op, num_outputs := num_outputs, shape := shape,
      node_hash := ctorNodeHash op hash_seed, hash := ctorNodeHash op hash_seed,
      operands := [], operands_as_outputs := [], uses := [] }
  operands.foldl (ctorStep self) (setNode g self n0)

/-! ## Shape cache and `Node::GetOpShape` (ir.cpp lines 287-294)

Modelled from the spec: `xla::util::Cache` (xla_client) is not among the
embedded sources; the spec describes it as a bounded hash-to-shape mapping
whose exact eviction policy is "delegated to the generic cache collaborator",
and the cache claims below quantify over request sequences in which the
entry of interest stays resident, so the collaborator is modelled as a plain
lookup/insert map without eviction. -/

abbrev ShapeCache := List (Nat × XShape)

/-- `ShapeCache::Get`. -/
def cacheGet (c : ShapeCache) (h : Nat) : Option XShape :=
  (c.find? (fun p => p.1 = h)).map (·.2)

/-- `ShapeCache::Add`. -/
def cacheAdd (c : ShapeCache) (h : Nat) (s : XShape) : ShapeCache :=
  (h, s) :: c

/-- `Node::GetOpShape` from ir.cpp: looks up the node's full hash in the
shape cache and, on a miss, invokes the shape function and stores its
result.  The zero-argument shape function is represented by the value it
would return (`fnShape`); the returned `Bool` records whether the function
was invoked. -/
def GetOpShape (c : ShapeCache) (hash : Nat) (fnShape : XShape) :
    XShape × ShapeCache × Bool :=
  match cacheGet c hash with
  | some s => (s, c, false)
  | none => (fnShape, cacheAdd c hash fnShape, true)

/-- A sequence of `GetOpShape` requests, each given by the node hash and
the shape its shape function would compute. -/
def runShapeRequests (c : ShapeCache) (reqs : List (Nat × XShape)) : ShapeCache :=
  reqs.foldl (fun cacc r => (GetOpShape cacc r.1 r.2).2.1) c

/-- The lazy-shape constructor `Node::Node(OpKind, OpList,
const std::function<xla::Shape()>&, size_t, xla::hash_t)` from ir.cpp lines
175-182: delegates to `constructNode` with the empty placeholder shape (so
the full hash is established first), then stores the shape obtained from
`GetOpShape` into `shape_`.  Returns the new graph, the updated shape
cache, and whether the shape function was invoked. -/
def constructNodeLazyShape (g : Graph) (self : NodeId) (op : String)
    (operands : List Output) (num_outputs : Nat) (hash_seed : Nat)
    (c : ShapeCache) (fnShape : XShape) : Graph × ShapeCache × Bool :=
  let g1 := constructNode g self op operands emptyXShape num_outputs hash_seed
  match g1 self with
  | none => (g1, c, false)
  | some n =>
      let r := GetOpShape c n.hash fnShape
      (modifyNode g1 self (fun m => { m with shape := r.1 }), r.2.1, r.2.2)

/-! ## Graph well-formedness

The invariants the C++ maintains between operand edges and use
back-references (spec section 3): operand/output lists are parallel, and the
use sets are exactly the reverse edges. -/

/-- Well-formedness of a graph state: `operands_` and `operands_as_outputs_`
are parallel lists, every recorded use points back at a real operand edge of
its consumer (soundness), every operand edge is recorded as a use on its
producer (completeness), and use sets hold no duplicates. -/
structure WFG (g : Graph) : Prop where
  lenEq : ∀ c nc, g c = some nc → nc.operands.length = nc.operands_as_outputs.length
  pairing : ∀ c nc slot out, g c = some nc →
    nc.operands_as_outputs.get? slot = some out → nc.operands.get? slot = some out.node
  usesNodup : ∀ a na, g a = some na → na.uses.Nodup
  usesSound : ∀ a na u, g a = some na → u ∈ na.uses →
    ∃ nc, g u.node = some nc ∧
      nc.operands_as_outputs.get? u.operand_index = some ⟨a, u.index⟩
  usesComplete : ∀ c nc slot out, g c = some nc →
    nc.operands_as_outputs.get? slot = some out →
    ∃ np, g out.node = some np ∧ (⟨c, slot, out.index⟩ : Use) ∈ np.uses

/-! ## Concrete graphs for the witnesses -/

/-- Producer node 0 of the mutation demo graph: used by consumer 2 (slot 0)
and consumer 3 (slots 0 and 1). -/
def demoN0 : Node :=
  { op := "aten::add", num_outputs := 1, shape := XShape.arr [2],
    node_hash := 0, hash := 0, operands := [], operands_as_outputs := [],
    uses := [⟨2, 0, 0⟩, ⟨3, 0, 0⟩, ⟨3, 1, 0⟩] }

/-- Producer node 1 of the mutation demo graph: the replacement target,
initially unused. -/
def demoN1 : Node :=
  { op := "aten::mul", num_outputs := 1, shape := XShape.arr [2],
    node_hash := 0, hash := 0, operands := [], operands_as_outputs := [],
    uses := [] }

/-- Consumer node 2 of the mutation demo graph: one operand, node 0. -/
def demoN2 : Node :=
  { op := "aten::relu", num_outputs := 1, shape := XShape.arr [2],
    node_hash := 0, hash := 0, operands := [0], operands_as_outputs := [⟨0, 0⟩],
    uses := [] }

/-- Consumer node 3 of the mutation demo graph: two operands, both node 0. -/
def demoN3 : Node :=
  { op := "aten::tanh", num_outputs := 1, shape := XShape.arr [2],
    node_hash := 0, hash := 0, operands := [0, 0],
    operands_as_outputs := [⟨0, 0⟩, ⟨0, 0⟩], uses := [] }

/-- The four-node mutation demo graph. -/
def demoG : Graph := fun j =>
  match j with
  | 0 => some demoN0
  | 1 => some demoN1
  | 2 => some demoN2
  | 3 => some demoN3
  | _ + 4 => none

/-- Producer-only graph for the hashing witnesses: two leaf nodes with
distinct full hashes. -/
def hashDemoG : Graph := fun j =>
  match j with
  | 10 => some { (default : Node) with hash := 3 }
  | 11 => some { (default : Node) with hash := 7 }
  | _ => none

/-- Node built by the operand-list constructor over `hashDemoG` with
operands (10,0) then (11,0). -/
def hashDemoNode1 : Node :=
  ((constructNode hashDemoG 0 "aten::add" [⟨10, 0⟩, ⟨11, 0⟩] emptyXShape 1 0) 0).getD default

/-- Node built like `hashDemoNode1` but with the operand order swapped. -/
def hashDemoNode2 : Node :=
  ((constructNode hashDemoG 1 "aten::add" [⟨11, 0⟩, ⟨10, 0⟩] emptyXShape 1 0) 1).getD default

/-- Leaf node built by the eager constructor with the empty placeholder
shape (for the lazy-constructor witness). -/
def lazyDemoBase : Node :=
  ((constructNode (fun _ => none) 0 "aten::relu" [] emptyXShape 1 5) 0).getD default

/-- Leaf node built by the lazy-shape constructor with shape function
result `arr [1]`. -/
def lazyDemoNode1 : Node :=
  (((constructNodeLazyShape (fun _ => none) 0 "aten::relu" [] 1 5 [] (XShape.arr [1])).1) 0).getD
    default

/-- Leaf node built by the lazy-shape constructor with shape function
result `arr [2, 2]`. -/
def lazyDemoNode2 : Node :=
  (((constructNodeLazyShape (fun _ => none) 0 "aten::relu" [] 1 5 [] (XShape.arr [2, 2])).1) 0).getD
    default

end TorchXlaIR

namespace TorchXlaIR

/-- C6: starting from a fresh per-thread scope context, `PushScope "a"` then
`PushScope "b"` renders the current scope as `"a.1/b.1"`; after one
`PopScope` followed by `PushScope "b"` again it renders as `"a.1/b.2"`
(the sibling id increments, the child id resets on a freshly pushed parent
scope). -/
theorem scope_push_pop_renders_sibling_ids :
    GetCurrentScope (PushScope "b" (PushScope "a" initScopeContext)) = "a.1/b.1" ∧
    (PopScope (PushScope "b" (PushScope "a" initScopeContext))).map
        (fun c => GetCurrentScope (PushScope "b" c)) = some "a.1/b.2" := by
  constructor <;> rfl

/-- C8: `Node::shape(i)` on a tuple-shaped node returns the i-th tuple
sub-shape; on a non-tuple node, `shape(0)` returns the whole declared shape
and any nonzero index is a fatal precondition failure (modelled as
`none`). -/
theorem node_shape_tuple_vs_nontuple (n : Node) (i : Nat) :
    (∀ subs, n.shape = XShape.tuple subs →
      nodeShape n i = subs.get? i ∧
      ∀ h : i < subs.length, nodeShape n i = some (subs.get ⟨i, h⟩)) ∧
    (∀ dims, n.shape = XShape.arr dims →
      nodeShape n 0 = some n.shape ∧ (i ≠ 0 → nodeShape n i = none)) := by
  constructor
  · intro subs hs
    constructor
    · simp [nodeShape, hs, XShape.IsTuple, XShape.tuple_shapes]
    · intro h
      simp [nodeShape, hs, XShape.IsTuple, XShape.tuple_shapes, List.get?_eq_get h]
  · intro dims hs
    refine ⟨by simp [nodeShape, hs, XShape.IsTuple], fun hi => ?_⟩
    simp [nodeShape, hs, XShape.IsTuple, hi]

/-- Witness for C8 at concrete shapes: a two-element tuple node and a
non-tuple node. -/
theorem node_shape_tuple_vs_nontuple_witness :
    nodeShape { (default : Node) with
        shape := XShape.tuple [XShape.arr [3], XShape.arr [4]] } 1
      = some (XShape.arr [4]) ∧
    nodeShape { (default : Node) with shape := XShape.arr [5] } 0
      = some (XShape.arr [5]) ∧
    nodeShape { (default : Node) with shape := XShape.arr [5] } 1 = none := by
  refine ⟨?_, ?_, ?_⟩
  · exact ((node_shape_tuple_vs_nontuple
      { (default : Node) with shape := XShape.tuple [XShape.arr [3], XShape.arr [4]] } 1).1
      [XShape.arr [3], XShape.arr [4]] rfl).2 (by decide)
  · exact ((node_shape_tuple_vs_nontuple
      { (default : Node) with shape := XShape.arr [5] } 0).2 [5] rfl).1
  · exact ((node_shape_tuple_vs_nontuple
      { (default : Node) with shape := XShape.arr [5] } 1).2 [5] rfl).2 (by decide)

/-- C9: `PythonAddFrontendAttribute` inserts the pair only when the key is
absent from the calling thread's attribute map; when the key is already
present the map is left unchanged (the existing value is not
overwritten). -/
theorem python_add_frontend_attribute_only_if_absent (m : AttrMap) (k v : String) :
    (attrFind m k = none →
      PythonAddFrontendAttribute k v m = (k, v) :: m ∧
      attrFind (PythonAddFrontendAttribute k v m) k = some v) ∧
    (∀ w, attrFind m k = some w → PythonAddFrontendAttribute k v m = m) := by
  constructor
  · intro h
    have hs : (attrFind m k).isSome = false := by rw [h]; rfl
    have he : PythonAddFrontendAttribute k v m = (k, v) :: m := by
      simp [PythonAddFrontendAttribute, attrEmplace, hs]
    refine ⟨he, ?_⟩
    rw [he]
    simp [attrFind, List.find?]
  · intro w h
    have hs : (attrFind m k).isSome = true := by rw [h]; rfl
    simp [PythonAddFrontendAttribute, attrEmplace, hs]

/-- Witness for C9 at a concrete map: inserting a fresh key and
re-inserting an existing key. -/
theorem python_add_frontend_attribute_only_if_absent_witness :
    PythonAddFrontendAttribute "b" "2" [("a", "1")] = [("b", "2"), ("a", "1")] ∧
    PythonAddFrontendAttribute "a" "9" [("a", "1")] = [("a", "1")] := by
  constructor
  · exact ((python_add_frontend_attribute_only_if_absent [("a", "1")] "b" "2").1 (by rfl)).1
  · exact (python_add_frontend_attribute_only_if_absent [("a", "1")] "a" "9").2 "1" (by rfl)

/-- C7 (failing input): pushing a scoped frontend attribute with an empty
incoming value onto a map where the key is absent leaves the key PRESENT
for the scope's duration, bound to the empty string — the constructor's
`else` branch emplaces the empty value instead of honouring the
"empty value means to erase from the map" sentinel stated by the code's own
comment and by the spec. -/
theorem fa_pusher_empty_value_on_absent_key_inserts_entry :
    attrFind (faPusherAcquire "k" "" false []).2 "k" = some "" ∧
    (faPusherAcquire "k" "" false []).2 = [("k", "")] := by
  constructor <;> rfl

/-- An entry present in the shape cache survives any sequence of
`GetOpShape` requests (`GetOpShape` never removes entries, and only inserts
under hashes that miss). -/
theorem cacheGet_runShapeRequests (h : Nat) (s : XShape) :
    ∀ (reqs : List (Nat × XShape)) (c : ShapeCache), cacheGet c h = some s →
      cacheGet (runShapeRequests c reqs) h = some s := by
  intro reqs
  induction reqs with
  | nil => intro c hc; exact hc
  | cons r t ih =>
    intro c hc
    have hstep : cacheGet (GetOpShape c r.1 r.2).2.1 h = some s := by
      unfold GetOpShape
      cases hr : cacheGet c r.1 with
      | some sr => simpa using hc
      | none =>
        have hne : r.1 ≠ h := fun he => by rw [he, hc] at hr; cases hr
        simpa [cacheAdd, cacheGet, List.find?, hne] using hc
    exact ih _ hstep

/-- C5: two `GetOpShape` requests computing the same full hash invoke the
shape function at most once: whatever requests are interleaved, the later
request does not invoke its shape function (flag `false`), leaves the cache
unchanged, and returns exactly the shape instance the first request left in
the cache under that hash. -/
theorem shape_cache_second_request_hits (c : ShapeCache) (h : Nat) (v1 v2 : XShape)
    (reqs : List (Nat × XShape)) :
    cacheGet (GetOpShape c h v1).2.1 h = some (GetOpShape c h v1).1 ∧
    GetOpShape (runShapeRequests (GetOpShape c h v1).2.1 reqs) h v2
      = ((GetOpShape c h v1).1, runShapeRequests (GetOpShape c h v1).2.1 reqs, false) := by
  have hfirst : cacheGet (GetOpShape c h v1).2.1 h = some (GetOpShape c h v1).1 := by
    unfold GetOpShape
    cases hr : cacheGet c h with
    | some s => simpa using hr
    | none => simp [cacheAdd, cacheGet, List.find?]
  refine ⟨hfirst, ?_⟩
  have hlater := cacheGet_runShapeRequests h _ reqs _ hfirst
  have hhit : ∀ (c2 : ShapeCache) (s : XShape), cacheGet c2 h = some s →
      GetOpShape c2 h v2 = (s, c2, false) := by
    intro c2 s hc2
    unfold GetOpShape
    rw [hc2]
  exact hhit _ _ hlater

/-! ### Pointwise lemmas for the graph model -/

@[simp] theorem setNode_same (g : Graph) (i : NodeId) (n : Node) : setNode g i n i = some n := by
  simp [setNode]

theorem setNode_ne (g : Graph) (i : NodeId) (n : Node) (j : NodeId) (h : j ≠ i) :
    setNode g i n j = g j := by
  simp [setNode, h]

@[simp] theorem modifyNode_same (g : Graph) (i : NodeId) (f : Node → Node) :
    modifyNode g i f i = (g i).map f := by
  simp [modifyNode]

theorem modifyNode_ne (g : Graph) (i : NodeId) (f : Node → Node) (j : NodeId) (h : j ≠ i) :
    modifyNode g i f j = g j := by
  simp [modifyNode, h]

@[simp] theorem withUseAdded_op (n : Node) (u : Use) : (n.withUseAdded u).op = n.op := rfl
@[simp] theorem withUseAdded_num_outputs (n : Node) (u : Use) :
    (n.withUseAdded u).num_outputs = n.num_outputs := rfl
@[simp] theorem withUseAdded_shape (n : Node) (u : Use) : (n.withUseAdded u).shape = n.shape := rfl
@[simp] theorem withUseAdded_node_hash (n : Node) (u : Use) :
    (n.withUseAdded u).node_hash = n.node_hash := rfl
@[simp] theorem withUseAdded_hash (n : Node) (u : Use) : (n.withUseAdded u).hash = n.hash := rfl
@[simp] theorem withUseAdded_operands (n : Node) (u : Use) :
    (n.withUseAdded u).operands = n.operands := rfl
@[simp] theorem withUseAdded_outputs (n : Node) (u : Use) :
    (n.withUseAdded u).operands_as_outputs = n.operands_as_outputs := rfl

@[simp] theorem withUseRemoved_op (n : Node) (u : Use) : (n.withUseRemoved u).op = n.op := rfl
@[simp] theorem withUseRemoved_num_outputs (n : Node) (u : Use) :
    (n.withUseRemoved u).num_outputs = n.num_outputs := rfl
@[simp] theorem withUseRemoved_shape (n : Node) (u : Use) :
    (n.withUseRemoved u).shape = n.shape := rfl
@[simp] theorem withUseRemoved_node_hash (n : Node) (u : Use) :
    (n.withUseRemoved u).node_hash = n.node_hash := rfl
@[simp] theorem withUseRemoved_hash (n : Node) (u : Use) :
    (n.withUseRemoved u).hash = n.hash := rfl
@[simp] theorem withUseRemoved_operands (n : Node) (u : Use) :
    (n.withUseRemoved u).operands = n.operands := rfl
@[simp] theorem withUseRemoved_outputs (n : Node) (u : Use) :
    (n.withUseRemoved u).operands_as_outputs = n.operands_as_outputs := rfl
@[simp] theorem withUseRemoved_uses (n : Node) (u : Use) :
    (n.withUseRemoved u).uses = n.uses.erase u := rfl

@[simp] theorem withOperandSet_op (n : Node) (slot : Nat) (p : NodeId) (i : Nat) :
    (n.withOperandSet slot p i).op = n.op := rfl
@[simp] theorem withOperandSet_num_outputs (n : Node) (slot : Nat) (p : NodeId) (i : Nat) :
    (n.withOperandSet slot p i).num_outputs = n.num_outputs := rfl
@[simp] theorem withOperandSet_shape (n : Node) (slot : Nat) (p : NodeId) (i : Nat) :
    (n.withOperandSet slot p i).shape = n.shape := rfl
@[simp] theorem withOperandSet_node_hash (n : Node) (slot : Nat) (p : NodeId) (i : Nat) :
    (n.withOperandSet slot p i).node_hash = n.node_hash := rfl
@[simp] theorem withOperandSet_hash (n : Node) (slot : Nat) (p : NodeId) (i : Nat) :
    (n.withOperandSet slot p i).hash = n.hash := rfl
@[simp] theorem withOperandSet_uses (n : Node) (slot : Nat) (p : NodeId) (i : Nat) :
    (n.withOperandSet slot p i).uses = n.uses := rfl
@[simp] theorem withOperandSet_operands (n : Node) (slot : Nat) (p : NodeId) (i : Nat) :
    (n.withOperandSet slot p i).operands = n.operands.set slot p := rfl
@[simp] theorem withOperandSet_outputs (n : Node) (slot : Nat) (p : NodeId) (i : Nat) :
    (n.withOperandSet slot p i).operands_as_outputs
      = n.operands_as_outputs.set slot ⟨p, i⟩ := rfl

theorem mem_withUseAdded_uses (n : Node) (u v : Use) :
    v ∈ (n.withUseAdded u).uses ↔ v ∈ n.uses ∨ v = u := by
  by_cases h : u ∈ n.uses
  · simp only [Node.withUseAdded, if_pos h]
    constructor
    · exact Or.inl
    · rintro (hv | rfl)
      · exact hv
      · exact h
  · simp [Node.withUseAdded, if_neg h, List.mem_append]

theorem self_mem_withUseAdded_uses (n : Node) (u : Use) : u ∈ (n.withUseAdded u).uses :=
  (mem_withUseAdded_uses n u u).mpr (Or.inr rfl)

/-- Unfolding `AddOperand` when the node exists. -/
theorem AddOperand_eq (g : Graph) (self node : NodeId) (index : Nat) (n : Node)
    (h : g self = some n) :
    AddOperand g self node index =
      AddUse (setNode g self
          { n with operands := n.operands ++ [node],
                   operands_as_outputs := n.operands_as_outputs ++ [⟨node, index⟩] })
        node ⟨self, n.operands.length, index⟩ := by
  unfold AddOperand
  rw [h]

/-- Unfolding `ReplaceOperand` when the node exists and the slot is
occupied. -/
theorem ReplaceOperand_eq (g : Graph) (self : NodeId) (slot : Nat) (B : NodeId) (i : Nat)
    (n : Node) (old : NodeId) (oldIdx : Nat)
    (h : g self = some n)
    (hout : n.operands_as_outputs.get? slot = some ⟨old, oldIdx⟩)
    (hop : n.operands.get? slot = some old) :
    ReplaceOperand g self slot B i =
      modifyNode (AddUse (RemoveUse g old ⟨self, slot, oldIdx⟩) B ⟨self, slot, i⟩) self
        (Node.withOperandSet · slot B i) := by
  unfold ReplaceOperand
  rw [h]
  simp only [hout, hop, Option.getD_some]

/-! ### Hash development -/

/-- `HashCombine` is injective in both arguments (the spec-modelled
combiner is an injective pairing). -/
theorem HashCombine_inj {a b c d : Nat} (h : HashCombine a b = HashCombine c d) :
    a = c ∧ b = d :=
  Nat.pair_eq_pair.mp h

/-- Folding the combiner over equal-length hash lists is injective in the
initial value and the list. -/
theorem foldl_HashCombine_inj :
    ∀ (l1 l2 : List Nat) (a b : Nat), l1.length = l2.length →
      l1.foldl HashCombine a = l2.foldl HashCombine b → a = b ∧ l1 = l2 := by
  intro l1
  induction l1 with
  | nil =>
    intro l2 a b hlen heq
    cases l2 with
    | nil => exact ⟨heq, rfl⟩
    | cons y t2 => simp at hlen
  | cons x t ih =>
    intro l2 a b hlen heq
    cases l2 with
    | nil => simp at hlen
    | cons y t2 =>
      simp only [List.foldl_cons] at heq
      have hlen2 : t.length = t2.length := by simpa using hlen
      obtain ⟨hhead, htail⟩ := ih t2 _ _ hlen2 heq
      obtain ⟨hab, hxy⟩ := HashCombine_inj hhead
      exact ⟨hab, by rw [htail, hxy]⟩

/-- The operand loop of the constructor: starting from any node record at
`self` and any graph agreeing with `g0` on all hashes outside `self`, the
fold leaves `self` present with `hash_` equal to the fold of the operand
hashes (as read in `g0`) and all other fields untouched. -/
theorem ctorFold_hash (self : NodeId) (g0 : Graph) :
    ∀ (ops : List Output) (gacc : Graph) (n : Node),
      gacc self = some n →
      (∀ o ∈ ops, o.node ≠ self) →
      (∀ j, j ≠ self → (gacc j).map Node.hash = (g0 j).map Node.hash) →
      ∃ n2, (ops.foldl (ctorStep self) gacc) self = some n2 ∧
        n2.hash = (ops.map (OutputHashIn g0)).foldl HashCombine n.hash ∧
        n2.node_hash = n.node_hash ∧ n2.op = n.op ∧ n2.shape = n.shape ∧
        n2.num_outputs = n.num_outputs := by
  intro ops
  induction ops with
  | nil =>
    intro gacc n hself _ _
    exact ⟨n, hself, by simp, rfl, rfl, rfl, rfl⟩
  | cons o t ih =>
    intro gacc n hself hfresh hagree
    have honode : o.node ≠ self := hfresh o (List.mem_cons_self o t)
    have hAO := AddOperand_eq gacc self o.node o.index n hself
    have hg1self : (AddOperand gacc self o.node o.index) self = some
        { n with operands := n.operands ++ [o.node],
                 operands_as_outputs := n.operands_as_outputs ++ [⟨o.node, o.index⟩] } := by
      rw [hAO]
      unfold AddUse
      rw [modifyNode_ne _ _ _ _ (Ne.symm honode)]
      exact setNode_same _ _ _
    have hg1hash : ∀ j, j ≠ self →
        ((AddOperand gacc self o.node o.index) j).map Node.hash = (g0 j).map Node.hash := by
      intro j hj
      rw [hAO]
      unfold AddUse
      by_cases hjo : j = o.node
      · subst hjo
        rw [modifyNode_same, setNode_ne _ _ _ _ hj, ← hagree o.node hj]
        cases gacc o.node <;> simp
      · rw [modifyNode_ne _ _ _ _ hjo, setNode_ne _ _ _ _ hj]
        exact hagree j hj
    have hohash : OutputHashIn (AddOperand gacc self o.node o.index) o = OutputHashIn g0 o := by
      unfold OutputHashIn
      rw [hg1hash o.node honode]
    have hg2self : (modifyNode (AddOperand gacc self o.node o.index) self
        (fun m => { m with hash := HashCombine m.hash (OutputHashIn (AddOperand gacc self o.node o.index) o) })) self
        = some { n with
            operands := n.operands ++ [o.node],
            operands_as_outputs := n.operands_as_outputs ++ [⟨o.node, o.index⟩],
            hash := HashCombine n.hash (OutputHashIn g0 o) } := by
      rw [modifyNode_same, hg1self, hohash]
      rfl
    have hg2hash : ∀ j, j ≠ self →
        ((modifyNode (AddOperand gacc self o.node o.index) self
          (fun m => { m with hash := HashCombine m.hash (OutputHashIn (AddOperand gacc self o.node o.index) o) })) j).map
            Node.hash
          = (g0 j).map Node.hash := by
      intro j hj
      rw [modifyNode_ne _ _ _ _ hj]
      exact hg1hash j hj
    obtain ⟨n2, hn2, hh, hnh, hopf, hsh, hno⟩ :=
      ih _ _ hg2self (fun x hx => hfresh x (List.mem_cons_of_mem o hx)) hg2hash
    have hstep : (o :: t).foldl (ctorStep self) gacc
        = t.foldl (ctorStep self)
            (modifyNode (AddOperand gacc self o.node o.index) self
              (fun m => { m with hash := HashCombine m.hash (OutputHashIn (AddOperand gacc self o.node o.index) o) })) := by
      simp only [List.foldl_cons]
      rfl
    refine ⟨n2, by rw [hstep]; exact hn2, ?_, ?_, ?_, ?_, ?_⟩
    · rw [hh]
      simp [List.foldl_cons]
    · rw [hnh]
    · rw [hopf]
    · rw [hsh]
    · rw [hno]

/-- `constructNode` leaves node `self` present with the hashes of
ir.cpp lines 152-173: `node_hash_ = HashCombine(op.hash(), seed)` and
`hash_` the fold of the operand hashes over it. -/
theorem constructNode_self (g : Graph) (self : NodeId) (op : String) (ops : List Output)
    (shape : XShape) (nout seed : Nat) (hfresh : ∀ o ∈ ops, o.node ≠ self) :
    ∃ n, (constructNode g self op ops shape nout seed) self = some n ∧
      n.hash = ctorFullHash op seed (ops.map (OutputHashIn g)) ∧
      n.node_hash = ctorNodeHash op seed ∧ n.op = op ∧ n.shape = shape ∧
      n.num_outputs = nout := by
  obtain ⟨n2, h2, hh, hnh, hopf, hsh, hno⟩ :=
    ctorFold_hash self g ops
      (setNode g self
        { op := op, num_outputs := nout, shape := shape,
          node_hash := ctorNodeHash op seed, hash := ctorNodeHash op seed,
          operands := [], operands_as_outputs := [], uses := [] })
      _ (setNode_same _ _ _) hfresh
      (fun j hj => by rw [setNode_ne _ _ _ _ hj])
  exact ⟨n2, h2, hh, hnh, hopf, hsh, hno⟩

/-- C1: two nodes built by the operand-list constructor with identical
operator kind, shape, hash seed and the same ordered sequence of operand
hashes have equal full hashes; building from the same operand hash multiset
in a genuinely different order yields a different full hash. -/
theorem node_full_hash_operand_order (g : Graph) (self1 self2 : NodeId) (op : String)
    (shape : XShape) (num_outputs hash_seed : Nat) (ops1 ops2 : List Output)
    (hf1 : ∀ o ∈ ops1, o.node ≠ self1) (hf2 : ∀ o ∈ ops2, o.node ≠ self2)
    (n1 n2 : Node)
    (h1 : (constructNode g self1 op ops1 shape num_outputs hash_seed) self1 = some n1)
    (h2 : (constructNode g self2 op ops2 shape num_outputs hash_seed) self2 = some n2) :
    (ops1.map (OutputHashIn g) = ops2.map (OutputHashIn g) → n1.hash = n2.hash) ∧
    ((ops1.map (OutputHashIn g)).Perm (ops2.map (OutputHashIn g)) →
      ops1.map (OutputHashIn g) ≠ ops2.map (OutputHashIn g) → n1.hash ≠ n2.hash) := by
  obtain ⟨m1, e1, hh1, -, -, -, -⟩ :=
    constructNode_self g self1 op ops1 shape num_outputs hash_seed hf1
  obtain ⟨m2, e2, hh2, -, -, -, -⟩ :=
    constructNode_self g self2 op ops2 shape num_outputs hash_seed hf2
  rw [h1] at e1
  rw [h2] at e2
  obtain rfl := Option.some.inj e1
  obtain rfl := Option.some.inj e2
  constructor
  · intro he
    rw [hh1, hh2, he]
  · intro hperm hne heq
    rw [hh1, hh2] at heq
    unfold ctorFullHash at heq
    exact hne (foldl_HashCombine_inj _ _ _ _ hperm.length_eq heq).2

/-- Witness for C1: over `hashDemoG`, constructing with operand hashes in
the two orders `[(10,0),(11,0)]` and `[(11,0),(10,0)]` yields different
full hashes. -/
theorem node_full_hash_operand_order_witness : hashDemoNode1.hash ≠ hashDemoNode2.hash := by
  have h := node_full_hash_operand_order hashDemoG 0 1 "aten::add" emptyXShape 1 0
    [⟨10, 0⟩, ⟨11, 0⟩] [⟨11, 0⟩, ⟨10, 0⟩]
    (by decide) (by decide) hashDemoNode1 hashDemoNode2 rfl rfl
  exact h.2 (by decide) (by decide)

theorem RemoveUse_apply_same (g : Graph) (t : NodeId) (u : Use) :
    (RemoveUse g t u) t = (g t).map (Node.withUseRemoved · u) := by
  unfold RemoveUse
  exact modifyNode_same _ _ _

theorem RemoveUse_apply_ne (g : Graph) (t : NodeId) (u : Use) (j : NodeId) (h : j ≠ t) :
    (RemoveUse g t u) j = g j := by
  unfold RemoveUse
  exact modifyNode_ne _ _ _ _ h

/-- `AddUse` changes no operand/output array anywhere. -/
theorem AddUse_preserves (g : Graph) (t : NodeId) (w : Use) (j : NodeId) (nj : Node)
    (hj : g j = some nj) :
    ∃ nj2, (AddUse g t w) j = some nj2 ∧
      nj2.operands = nj.operands ∧ nj2.operands_as_outputs = nj.operands_as_outputs := by
  unfold AddUse
  by_cases h : j = t
  · subst h
    rw [modifyNode_same, hj]
    exact ⟨_, rfl, by simp, by simp⟩
  · rw [modifyNode_ne _ _ _ _ h]
    exact ⟨nj, hj, rfl, rfl⟩

/-- `RemoveUse` changes no operand/output array anywhere. -/
theorem RemoveUse_preserves (g : Graph) (t : NodeId) (w : Use) (j : NodeId) (nj : Node)
    (hj : g j = some nj) :
    ∃ nj2, (RemoveUse g t w) j = some nj2 ∧
      nj2.operands = nj.operands ∧ nj2.operands_as_outputs = nj.operands_as_outputs := by
  unfold RemoveUse
  by_cases h : j = t
  · subst h
    rw [modifyNode_same, hj]
    exact ⟨_, rfl, by simp, by simp⟩
  · rw [modifyNode_ne _ _ _ _ h]
    exact ⟨nj, hj, rfl, rfl⟩

/-- In a well-formed graph, the recorded uses of a node `A` all point back
at operand edges referencing `A`. -/
theorem WFG.uses_point_at {g : Graph} (hWF : WFG g) (A : NodeId) (nA : Node)
    (hA : g A = some nA) :
    ∀ u ∈ nA.uses, ∃ nc, g u.node = some nc ∧
      nc.operands_as_outputs.get? u.operand_index = some ⟨A, u.index⟩ ∧
      nc.operands.get? u.operand_index = some A := by
  intro u hu
  obtain ⟨nc, hc, hcout⟩ := hWF.usesSound A nA u hA hu
  exact ⟨nc, hc, hcout, hWF.pairing _ _ _ _ hc hcout⟩

/-- In a well-formed graph, the (consumer, slot) keys of a node's use set
are pairwise distinct. -/
theorem WFG.uses_keys_nodup {g : Graph} (hWF : WFG g) (A : NodeId) (nA : Node)
    (hA : g A = some nA) :
    (nA.uses.map fun u => (u.node, u.operand_index)).Nodup := by
  refine List.Nodup.map_on ?_ (hWF.usesNodup A nA hA)
  intro u hu v hv hkey
  obtain ⟨nc, hc, hcout⟩ := hWF.usesSound A nA u hA hu
  obtain ⟨nc2, hc2, hcout2⟩ := hWF.usesSound A nA v hA hv
  obtain ⟨un, uo, ui⟩ := u
  obtain ⟨vn, vo, vi⟩ := v
  simp only [Prod.mk.injEq] at hkey
  obtain ⟨rfl, rfl⟩ : un = vn ∧ uo = vo := hkey
  simp only at hc hc2 hcout hcout2
  rw [hc] at hc2
  obtain rfl := Option.some.inj hc2
  rw [hcout] at hcout2
  obtain rfl : ui = vi := congrArg Output.index (Option.some.inj hcout2)
  rfl

/-- The fold at the heart of `ReplaceAllUsesWith`: redirecting every use in
the snapshot `S` (the use set of node `A`) to `(B, i)` empties `A`'s use
set, rewrites every snapshotted consumer slot to reference `(B, i)`, and
touches no other operand slot of any node. -/
theorem rauw_fold (A B : NodeId) (i : Nat) (hAB : A ≠ B) :
    ∀ (S : List Use) (gacc : Graph) (nA1 : Node),
      gacc A = some nA1 → nA1.uses = S →
      ((S.map fun u => (u.node, u.operand_index)).Nodup) →
      (∀ u ∈ S, ∃ nc, gacc u.node = some nc ∧
        nc.operands_as_outputs.get? u.operand_index = some ⟨A, u.index⟩ ∧
        nc.operands.get? u.operand_index = some A) →
      (∃ nA2, (S.foldl (fun h w => ReplaceOperand h w.node w.operand_index B i) gacc) A
          = some nA2 ∧ nA2.uses = []) ∧
      (∀ u ∈ S, ∃ nc2,
        (S.foldl (fun h w => ReplaceOperand h w.node w.operand_index B i) gacc) u.node
          = some nc2 ∧
        nc2.operands_as_outputs.get? u.operand_index = some ⟨B, i⟩ ∧
        nc2.operands.get? u.operand_index = some B) ∧
      (∀ j nj, gacc j = some nj →
        ∃ nj2, (S.foldl (fun h w => ReplaceOperand h w.node w.operand_index B i) gacc) j
            = some nj2 ∧
          ∀ slot, (∀ u ∈ S, ¬(u.node = j ∧ u.operand_index = slot)) →
            nj2.operands_as_outputs.get? slot = nj.operands_as_outputs.get? slot ∧
            nj2.operands.get? slot = nj.operands.get? slot) := by
  intro S
  induction S with
  | nil =>
    intro gacc nA1 hA huses _ _
    refine ⟨⟨nA1, hA, huses ▸ rfl⟩, ?_, ?_⟩
    · intro u hu
      cases hu
    · intro j nj hj
      exact ⟨nj, hj, fun slot _ => ⟨rfl, rfl⟩⟩
  | cons u S' ih =>
    intro gacc nA1 hA huses hkeys hS
    obtain ⟨nc, hc, hcout, hcop⟩ := hS u (List.mem_cons_self u S')
    have hkeys2 : ((u.node, u.operand_index) ∉ S'.map fun w => (w.node, w.operand_index)) ∧
        ((S'.map fun w => (w.node, w.operand_index)).Nodup) := by
      rw [List.map_cons] at hkeys
      exact ⟨(List.nodup_cons.mp hkeys).1, (List.nodup_cons.mp hkeys).2⟩
    have hRO := ReplaceOperand_eq gacc u.node u.operand_index B i nc A u.index hc hcout hcop
    -- the one-step graph
    have hfold : (u :: S').foldl (fun h w => ReplaceOperand h w.node w.operand_index B i) gacc
        = S'.foldl (fun h w => ReplaceOperand h w.node w.operand_index B i)
            (ReplaceOperand gacc u.node u.operand_index B i) := by
      simp [List.foldl_cons]
    -- A's record after one step: uses lose `u`, arrays only touched if A consumes itself
    have herase : nA1.uses.erase (⟨u.node, u.operand_index, u.index⟩ : Use) = S' := by
      rw [huses]
      exact List.erase_cons_head u S'
    have hg1A : ∃ nA1b, (ReplaceOperand gacc u.node u.operand_index B i) A = some nA1b ∧
        nA1b.uses = S' := by
      rw [hRO]
      by_cases hA1 : A = u.node
      · rw [← hA1, modifyNode_same]
        unfold AddUse RemoveUse
        rw [modifyNode_ne _ _ _ _ hAB, modifyNode_same, hA]
        refine ⟨_, rfl, ?_⟩
        simp only [Option.map_some', withOperandSet_uses, withUseRemoved_uses]
        rw [hA1]
        exact herase
      · rw [modifyNode_ne _ _ _ _ hA1]
        unfold AddUse RemoveUse
        rw [modifyNode_ne _ _ _ _ hAB, modifyNode_same, hA]
        refine ⟨_, rfl, ?_⟩
        simp only [Option.map_some', withUseRemoved_uses]
        exact herase
    obtain ⟨nA1b, hg1Ab, hg1Auses⟩ := hg1A
    -- remaining snapshot entries still point at A after one step
    have hS' : ∀ v ∈ S', ∃ ncv2,
        (ReplaceOperand gacc u.node u.operand_index B i) v.node = some ncv2 ∧
        ncv2.operands_as_outputs.get? v.operand_index = some ⟨A, v.index⟩ ∧
        ncv2.operands.get? v.operand_index = some A := by
      intro v hv
      obtain ⟨ncv, hcv, hcoutv, hcopv⟩ := hS v (List.mem_cons_of_mem u hv)
      have hkeyne : ¬(v.node = u.node ∧ v.operand_index = u.operand_index) := by
        rintro ⟨e1, e2⟩
        exact hkeys2.1 (by
          rw [← e1, ← e2]
          exact List.mem_map_of_mem (fun w => (w.node, w.operand_index)) hv)
      obtain ⟨ncv1, hcv1, ev1, ev2⟩ :=
        RemoveUse_preserves gacc A ⟨u.node, u.operand_index, u.index⟩ v.node ncv hcv
      obtain ⟨ncv2, hcv2, ev3, ev4⟩ :=
        AddUse_preserves _ B ⟨u.node, u.operand_index, i⟩ v.node ncv1 hcv1
      rw [hRO]
      by_cases hvu : v.node = u.node
      · have hslotne : v.operand_index ≠ u.operand_index := fun e => hkeyne ⟨hvu, e⟩
        rw [hvu] at hcv2 ⊢
        rw [modifyNode_same, hcv2]
        refine ⟨_, rfl, ?_, ?_⟩
        · simp only [Option.map_some', withOperandSet_outputs]
          rw [List.get?_set_ne _ _ (fun e => hslotne e.symm), ev4, ev2]
          exact hcoutv
        · simp only [Option.map_some', withOperandSet_operands]
          rw [List.get?_set_ne _ _ (fun e => hslotne e.symm), ev3, ev1]
          exact hcopv
      · rw [modifyNode_ne _ _ _ _ hvu, hcv2]
        refine ⟨ncv2, rfl, ?_, ?_⟩
        · rw [ev4, ev2]
          exact hcoutv
        · rw [ev3, ev1]
          exact hcopv
    obtain ⟨ihA, ihS, ihFrame⟩ :=
      ih (ReplaceOperand gacc u.node u.operand_index B i) nA1b hg1Ab hg1Auses hkeys2.2 hS'
    refine ⟨?_, ?_, ?_⟩
    · rw [hfold]
      exact ihA
    · -- every entry of the whole snapshot ends up referencing (B, i)
      intro v hv
      rcases List.mem_cons.mp hv with rfl | hv'
      · -- the head: step rewrites it, the rest of the fold leaves it alone
        obtain ⟨nc1, hc1, e1, e2⟩ :=
          RemoveUse_preserves gacc A ⟨v.node, v.operand_index, v.index⟩ v.node nc hc
        obtain ⟨nc2, hc2, e3, e4⟩ :=
          AddUse_preserves _ B ⟨v.node, v.operand_index, i⟩ v.node nc1 hc1
        have hlt_out : v.operand_index < nc.operands_as_outputs.length :=
          (List.get?_eq_some.mp hcout).1
        have hlt_op : v.operand_index < nc.operands.length :=
          (List.get?_eq_some.mp hcop).1
        have hg1v : (ReplaceOperand gacc v.node v.operand_index B i) v.node
            = some (nc2.withOperandSet v.operand_index B i) := by
          rw [hRO, modifyNode_same, hc2]
          rfl
        have hg1v_out : (nc2.withOperandSet v.operand_index B i).operands_as_outputs.get?
            v.operand_index = some ⟨B, i⟩ := by
          simp only [withOperandSet_outputs]
          rw [e4, e2]
          exact List.get?_set_eq_of_lt _ hlt_out
        have hg1v_op : (nc2.withOperandSet v.operand_index B i).operands.get?
            v.operand_index = some B := by
          simp only [withOperandSet_operands]
          rw [e3, e1]
          exact List.get?_set_eq_of_lt _ hlt_op
        obtain ⟨njf, hjf, hframe⟩ := ihFrame v.node _ hg1v
        have hcond : ∀ w ∈ S', ¬(w.node = v.node ∧ w.operand_index = v.operand_index) := by
          rintro w hw ⟨e5, e6⟩
          exact hkeys2.1 (by
            rw [← e5, ← e6]
            exact List.mem_map_of_mem (fun x => (x.node, x.operand_index)) hw)
        obtain ⟨f1, f2⟩ := hframe v.operand_index hcond
        refine ⟨njf, by rw [hfold]; exact hjf, ?_, ?_⟩
        · rw [f1]
          exact hg1v_out
        · rw [f2]
          exact hg1v_op
      · obtain ⟨nc2, h2, h3, h4⟩ := ihS v hv'
        exact ⟨nc2, by rw [hfold]; exact h2, h3, h4⟩
    · -- frame: untouched slots keep their arrays
      intro j nj hj
      obtain ⟨nj1, hj1, d1, d2⟩ :=
        RemoveUse_preserves gacc A ⟨u.node, u.operand_index, u.index⟩ j nj hj
      obtain ⟨nj2, hj2, d3, d4⟩ :=
        AddUse_preserves _ B ⟨u.node, u.operand_index, i⟩ j nj1 hj1
      by_cases hju : j = u.node
      · -- the step rewrote one slot of j; that slot is excluded by the condition
        have hg1j : (ReplaceOperand gacc u.node u.operand_index B i) j
            = some (nj2.withOperandSet u.operand_index B i) := by
          rw [hju] at hj2
          rw [hRO, hju, modifyNode_same, hj2]
          rfl
        obtain ⟨njf, hjf, hframe⟩ := ihFrame j _ hg1j
        refine ⟨njf, by rw [hfold]; exact hjf, ?_⟩
        intro slot hslotcond
        have hslotne : u.operand_index ≠ slot := by
          intro e
          exact (hslotcond u (List.mem_cons_self u S')) ⟨hju.symm, e⟩
        obtain ⟨f1, f2⟩ := hframe slot
          (fun w hw => hslotcond w (List.mem_cons_of_mem u hw))
        constructor
        · rw [f1]
          simp only [withOperandSet_outputs]
          rw [List.get?_set_ne _ _ hslotne, d4, d2]
        · rw [f2]
          simp only [withOperandSet_operands]
          rw [List.get?_set_ne _ _ hslotne, d3, d1]
      · have hg1j : (ReplaceOperand gacc u.node u.operand_index B i) j = some nj2 := by
          rw [hRO, modifyNode_ne _ _ _ _ hju]
          exact hj2
        obtain ⟨njf, hjf, hframe⟩ := ihFrame j _ hg1j
        refine ⟨njf, by rw [hfold]; exact hjf, ?_⟩
        intro slot hslotcond
        obtain ⟨f1, f2⟩ := hframe slot
          (fun w hw => hslotcond w (List.mem_cons_of_mem u hw))
        constructor
        · rw [f1, d4, d2]
        · rw [f2, d3, d1]

/-- C2: for a well-formed graph, distinct nodes `A ≠ B` and
`i < B->num_outputs()`, `A.ReplaceAllUsesWith(B, i)` rewrites every
consumer slot that referenced an output of `A` to reference `(B, i)` at the
same slot, and afterwards `A`'s use set is empty. -/
theorem replace_all_uses_redirects_and_empties
    (g : Graph) (A B : NodeId) (i : Nat) (hWF : WFG g) (hAB : A ≠ B)
    (nA nB : Node) (hA : g A = some nA) (hB : g B = some nB) (hi : i < nB.num_outputs) :
    (∀ c nc slot idx, g c = some nc →
      nc.operands_as_outputs.get? slot = some ⟨A, idx⟩ →
      ∃ nc2, (ReplaceAllUsesWith g A B i) c = some nc2 ∧
        nc2.operands_as_outputs.get? slot = some ⟨B, i⟩ ∧
        nc2.operands.get? slot = some B) ∧
    (∀ nA2, (ReplaceAllUsesWith g A B i) A = some nA2 → nA2.uses = []) := by
  have hfold : ReplaceAllUsesWith g A B i
      = nA.uses.foldl (fun h w => ReplaceOperand h w.node w.operand_index B i) g := by
    unfold ReplaceAllUsesWith
    rw [hA]
  obtain ⟨⟨nA2, hA2, hA2e⟩, hconc, -⟩ :=
    rauw_fold A B i hAB nA.uses g nA hA rfl (hWF.uses_keys_nodup A nA hA)
      (hWF.uses_point_at A nA hA)
  constructor
  · intro c nc slot idx hcn hcslot
    obtain ⟨np, hnp, hmem⟩ := hWF.usesComplete c nc slot ⟨A, idx⟩ hcn hcslot
    rw [hA] at hnp
    obtain rfl := Option.some.inj hnp
    obtain ⟨nc2, h2, h3, h4⟩ := hconc ⟨c, slot, idx⟩ hmem
    rw [hfold]
    exact ⟨nc2, h2, h3, h4⟩
  · intro nA2b hb
    rw [hfold, hA2] at hb
    obtain rfl := Option.some.inj hb
    exact hA2e

/-- The demo graph is well-formed. -/
theorem demoG_wf : WFG demoG := by
  refine ⟨?_, ?_, ?_, ?_, ?_⟩
  · -- lenEq
    intro c nc h
    rcases c with _|_|_|_|c <;> simp only [demoG] at h <;>
      first
        | (obtain rfl := Option.some.inj h; decide)
        | cases h
  · -- pairing
    intro c nc slot out h hout
    rcases c with _|_|_|_|c <;> simp only [demoG] at h
    · obtain rfl := Option.some.inj h
      simp [demoN0] at hout
    · obtain rfl := Option.some.inj h
      simp [demoN1] at hout
    · obtain rfl := Option.some.inj h
      rcases slot with _|slot
      · simp only [demoN2, List.get?] at hout
        obtain rfl := Option.some.inj hout
        rfl
      · simp [demoN2, List.get?] at hout
    · obtain rfl := Option.some.inj h
      rcases slot with _|_|slot
      · simp only [demoN3, List.get?] at hout
        obtain rfl := Option.some.inj hout
        rfl
      · simp only [demoN3, List.get?] at hout
        obtain rfl := Option.some.inj hout
        rfl
      · simp [demoN3, List.get?] at hout
    · cases h
  · -- usesNodup
    intro a na h
    rcases a with _|_|_|_|a <;> simp only [demoG] at h <;>
      first
        | (obtain rfl := Option.some.inj h; decide)
        | cases h
  · -- usesSound
    intro a na u h hu
    rcases a with _|_|_|_|a <;> simp only [demoG] at h
    · obtain rfl := Option.some.inj h
      simp only [demoN0, List.mem_cons, List.not_mem_nil, or_false] at hu
      rcases hu with rfl | rfl | rfl
      · exact ⟨demoN2, rfl, rfl⟩
      · exact ⟨demoN3, rfl, rfl⟩
      · exact ⟨demoN3, rfl, rfl⟩
    · obtain rfl := Option.some.inj h
      simp [demoN1] at hu
    · obtain rfl := Option.some.inj h
      simp [demoN2] at hu
    · obtain rfl := Option.some.inj h
      simp [demoN3] at hu
    · cases h
  · -- usesComplete
    intro c nc slot out h hout
    rcases c with _|_|_|_|c <;> simp only [demoG] at h
    · obtain rfl := Option.some.inj h
      simp [demoN0] at hout
    · obtain rfl := Option.some.inj h
      simp [demoN1] at hout
    · obtain rfl := Option.some.inj h
      rcases slot with _|slot
      · simp only [demoN2, List.get?] at hout
        obtain rfl := Option.some.inj hout
        exact ⟨demoN0, rfl, by decide⟩
      · simp [demoN2, List.get?] at hout
    · obtain rfl := Option.some.inj h
      rcases slot with _|_|slot
      · simp only [demoN3, List.get?] at hout
        obtain rfl := Option.some.inj hout
        exact ⟨demoN0, rfl, by decide⟩
      · simp only [demoN3, List.get?] at hout
        obtain rfl := Option.some.inj hout
        exact ⟨demoN0, rfl, by decide⟩
      · simp [demoN3, List.get?] at hout
    · cases h

/-- Witness for C2 on the demo graph: replacing all uses of node 0 with
(node 1, output 0) rewrites consumer 2's slot 0, consumer 3's slots 0 and
1, and empties node 0's use set. -/
theorem replace_all_uses_redirects_witness :
    (((ReplaceAllUsesWith demoG 0 1 0) 2).getD default).operands_as_outputs.get? 0
      = some ⟨1, 0⟩ ∧
    (((ReplaceAllUsesWith demoG 0 1 0) 3).getD default).operands_as_outputs.get? 1
      = some ⟨1, 0⟩ ∧
    (((ReplaceAllUsesWith demoG 0 1 0) 0).getD default).uses = [] := by
  obtain ⟨hred, hempty⟩ := replace_all_uses_redirects_and_empties demoG 0 1 0 demoG_wf
    (by decide) demoN0 demoN1 rfl rfl (by decide)
  refine ⟨?_, ?_, ?_⟩
  · obtain ⟨nc2, hnc2, ho, -⟩ := hred 2 demoN2 0 0 rfl rfl
    rw [hnc2]
    exact ho
  · obtain ⟨nc2, hnc2, ho, -⟩ := hred 3 demoN3 1 0 rfl rfl
    rw [hnc2]
    exact ho
  · exact hempty _ rfl

/-- C4: `ReplaceOperand(slot, newNode, newIndex)`, under the preconditions
that `newIndex < newNode->num_outputs()` and `slot` is in range, removes
this node's use on the old operand, adds a use on the new operand at the
same slot, overwrites the stored `Output` (and operand handle) with
`(newNode, newIndex)`, and leaves this node's `node_hash_`, `hash_` and
`shape_` unchanged. -/
theorem replace_operand_updates_edges_preserves_hash_shape
    (g : Graph) (self : NodeId) (slot : Nat) (newN : NodeId) (i : Nat)
    (n nOld nNew : Node) (old : NodeId) (oldIdx : Nat)
    (hself : g self = some n)
    (hout : n.operands_as_outputs.get? slot = some ⟨old, oldIdx⟩)
    (hop : n.operands.get? slot = some old)
    (hOld : g old = some nOld) (hNew : g newN = some nNew)
    (hnodup : nOld.uses.Nodup)
    (hdiff : old ≠ newN)
    (hi : i < nNew.num_outputs) (hrange : slot < n.operands.length) :
    (∃ m, (ReplaceOperand g self slot newN i) self = some m ∧
      m.operands_as_outputs = n.operands_as_outputs.set slot ⟨newN, i⟩ ∧
      m.operands = n.operands.set slot newN ∧
      m.node_hash = n.node_hash ∧ m.hash = n.hash ∧ m.shape = n.shape) ∧
    (∀ m, (ReplaceOperand g self slot newN i) old = some m →
      (⟨self, slot, oldIdx⟩ : Use) ∉ m.uses) ∧
    (∀ m, (ReplaceOperand g self slot newN i) newN = some m →
      (⟨self, slot, i⟩ : Use) ∈ m.uses) := by
  rw [ReplaceOperand_eq g self slot newN i n old oldIdx hself hout hop]
  have hG1self : ∃ m0,
      (AddUse (RemoveUse g old ⟨self, slot, oldIdx⟩) newN ⟨self, slot, i⟩) self = some m0 ∧
      m0.operands = n.operands ∧ m0.operands_as_outputs = n.operands_as_outputs ∧
      m0.node_hash = n.node_hash ∧ m0.hash = n.hash ∧ m0.shape = n.shape := by
    unfold AddUse RemoveUse
    by_cases h1 : self = newN
    · subst h1
      rw [modifyNode_same, modifyNode_ne _ _ _ _ (fun he => hdiff he.symm), hself]
      exact ⟨_, rfl, by simp, by simp, by simp, by simp, by simp⟩
    · rw [modifyNode_ne _ _ _ _ h1]
      by_cases h2 : self = old
      · subst h2
        rw [modifyNode_same, hself]
        exact ⟨_, rfl, by simp, by simp, by simp, by simp, by simp⟩
      · rw [modifyNode_ne _ _ _ _ h2, hself]
        exact ⟨n, rfl, rfl, rfl, rfl, rfl, rfl⟩
  refine ⟨?_, ?_, ?_⟩
  · obtain ⟨m0, hm0, f1, f2, f3, f4, f5⟩ := hG1self
    refine ⟨m0.withOperandSet slot newN i, ?_, ?_, ?_, ?_, ?_, ?_⟩
    · rw [modifyNode_same, hm0]
      rfl
    · simp [f2]
    · simp [f1]
    · simp [f3]
    · simp [f4]
    · simp [f5]
  · intro m hm
    have hG1old : (AddUse (RemoveUse g old ⟨self, slot, oldIdx⟩) newN ⟨self, slot, i⟩) old
        = some (nOld.withUseRemoved ⟨self, slot, oldIdx⟩) := by
      unfold AddUse RemoveUse
      rw [modifyNode_ne _ _ _ _ hdiff, modifyNode_same, hOld]
      rfl
    have hmem : (⟨self, slot, oldIdx⟩ : Use) ∉ nOld.uses.erase ⟨self, slot, oldIdx⟩ := by
      intro hc
      exact absurd rfl (hnodup.mem_erase_iff.mp hc).1
    by_cases h2 : old = self
    · subst h2
      rw [modifyNode_same, hG1old] at hm
      obtain rfl := Option.some.inj hm
      simpa using hmem
    · rw [modifyNode_ne _ _ _ _ h2, hG1old] at hm
      obtain rfl := Option.some.inj hm
      simpa using hmem
  · intro m hm
    have hG1new : ∃ m1,
        (AddUse (RemoveUse g old ⟨self, slot, oldIdx⟩) newN ⟨self, slot, i⟩) newN = some m1 ∧
        (⟨self, slot, i⟩ : Use) ∈ m1.uses := by
      unfold AddUse RemoveUse
      rw [modifyNode_same, modifyNode_ne _ _ _ _ (fun he => hdiff he.symm), hNew]
      exact ⟨_, rfl, self_mem_withUseAdded_uses _ _⟩
    obtain ⟨m1, hm1, hmem1⟩ := hG1new
    by_cases h2 : newN = self
    · subst h2
      rw [modifyNode_same, hm1] at hm
      obtain rfl := Option.some.inj hm
      simpa using hmem1
    · rw [modifyNode_ne _ _ _ _ h2, hm1] at hm
      obtain rfl := Option.some.inj hm
      exact hmem1

/-- Witness for C4 on the concrete demo graph: redirecting consumer 2's
slot 0 from producer 0 to producer 1. -/
theorem replace_operand_updates_edges_witness :
    (((ReplaceOperand demoG 2 0 1 0) 2).getD default).operands_as_outputs = [⟨1, 0⟩] ∧
    (((ReplaceOperand demoG 2 0 1 0) 2).getD default).hash = demoN2.hash ∧
    (⟨2, 0, 0⟩ : Use) ∉ (((ReplaceOperand demoG 2 0 1 0) 0).getD default).uses ∧
    (⟨2, 0, 0⟩ : Use) ∈ (((ReplaceOperand demoG 2 0 1 0) 1).getD default).uses := by
  obtain ⟨⟨m, hm, f1, -, -, f4, -⟩, h2, h3⟩ :=
    replace_operand_updates_edges_preserves_hash_shape demoG 2 0 1 0
      demoN2 demoN0 demoN1 0 0 rfl rfl rfl rfl rfl (by decide) (by decide) (by decide) (by decide)
  refine ⟨?_, ?_, ?_, ?_⟩
  · rw [hm]
    simpa using f1
  · rw [hm]
    simpa using f4
  · exact h2 _ rfl
  · exact h3 _ rfl

/-- The destructor loop of `Node::~Node`: after removing the back-use for
the first `k` operand slots, a node's use set has lost exactly the uses
whose consumer is `N` at a slot below `k` whose operand is that node; all
other uses (and all memberships) are untouched. -/
theorem destruct_fold_uses (g : Graph) (N : NodeId) (nN : Node) (hWF : WFG g)
    (hN : g N = some nN) :
    ∀ k, k ≤ nN.operands_as_outputs.length →
      ∀ j nj, g j = some nj →
        ∃ nj2, ((List.range k).foldl
            (fun gacc i2 => RemoveUse gacc ((nN.operands.get? i2).getD 0)
              ⟨N, i2, ((nN.operands_as_outputs.get? i2).getD ⟨0, 0⟩).index⟩) g) j = some nj2 ∧
          nj2.uses.Sublist nj.uses ∧
          (∀ u, u ∈ nj2.uses ↔ (u ∈ nj.uses ∧
            ¬(u.node = N ∧ u.operand_index < k ∧
              nN.operands.get? u.operand_index = some j))) := by
  intro k
  induction k with
  | zero =>
    intro _ j nj hj
    exact ⟨nj, hj, List.Sublist.refl _, fun u => by simp⟩
  | succ k ihk =>
    intro hk j nj hj
    have hk2 : k ≤ nN.operands_as_outputs.length := Nat.le_of_succ_le hk
    have hklt : k < nN.operands_as_outputs.length := hk
    obtain ⟨nj2, hj2, hsub, hiff⟩ := ihk hk2 j nj hj
    have hout_k : nN.operands_as_outputs.get? k
        = some (nN.operands_as_outputs.get ⟨k, hklt⟩) := List.get?_eq_get hklt
    have hop_k : nN.operands.get? k = some (nN.operands_as_outputs.get ⟨k, hklt⟩).node :=
      hWF.pairing N nN k _ hN hout_k
    have hfold : (List.range (k + 1)).foldl
          (fun gacc i2 => RemoveUse gacc ((nN.operands.get? i2).getD 0)
            ⟨N, i2, ((nN.operands_as_outputs.get? i2).getD ⟨0, 0⟩).index⟩) g
        = RemoveUse ((List.range k).foldl
            (fun gacc i2 => RemoveUse gacc ((nN.operands.get? i2).getD 0)
              ⟨N, i2, ((nN.operands_as_outputs.get? i2).getD ⟨0, 0⟩).index⟩) g)
            ((nN.operands.get? k).getD 0)
            ⟨N, k, ((nN.operands_as_outputs.get? k).getD ⟨0, 0⟩).index⟩ := by
      rw [List.range_succ, List.foldl_append, List.foldl_cons, List.foldl_nil]
    rw [hfold]
    by_cases hja : j = (nN.operands.get? k).getD 0
    · -- this step erases from node j
      rw [← hja, RemoveUse_apply_same, hj2]
      refine ⟨_, rfl, ?_, ?_⟩
      · simp only [Option.map_some', withUseRemoved_uses]
        exact (List.erase_sublist _ _).trans hsub
      · intro u
        have hnodup2 : nj2.uses.Nodup := (hWF.usesNodup j nj hj).sublist hsub
      -- membership in the erased list
        simp only [Option.map_some', withUseRemoved_uses]
        rw [hnodup2.mem_erase_iff]
        constructor
        · rintro ⟨hne, hu2⟩
          obtain ⟨hmem, hnck⟩ := (hiff u).mp hu2
          refine ⟨hmem, ?_⟩
          rintro ⟨e1, e2, e3⟩
          rcases Nat.lt_succ_iff_lt_or_eq.mp e2 with e2' | e2'
          · exact hnck ⟨e1, e2', e3⟩
          · -- slot = k: the erased key is exactly u
            obtain ⟨ncN, hncN, houtu⟩ := hWF.usesSound j nj u hj hmem
            rw [e1, hN] at hncN
            obtain rfl := Option.some.inj hncN
            rw [e2'] at houtu
            rw [hout_k] at houtu
            apply hne
            obtain ⟨un, uo, ui⟩ := u
            simp only at e1 e2'
            subst e1
            subst e2'
            have : (nN.operands_as_outputs.get ⟨uo, hklt⟩).index = ui := by
              have h2 := Option.some.inj houtu
              exact congrArg Output.index h2
            rw [hout_k]
            simp only [Option.getD_some]
            rw [this]
        · rintro ⟨hmem, hnc⟩
          have hncmono : ¬(u.node = N ∧ u.operand_index < k ∧
              nN.operands.get? u.operand_index = some j) := by
            rintro ⟨e1, e2, e3⟩
            exact hnc ⟨e1, Nat.lt_succ_of_lt e2, e3⟩
          refine ⟨?_, (hiff u).mpr ⟨hmem, hncmono⟩⟩
          intro hueq
          apply hnc
          have e1 : u.node = N := by rw [hueq]
          have e2 : u.operand_index = k := by rw [hueq]
          obtain ⟨ncN, hncN, houtu⟩ := hWF.usesSound j nj u hj hmem
          rw [e1, hN] at hncN
          obtain rfl := Option.some.inj hncN
          have e3 := hWF.pairing N nN u.operand_index _ hN houtu
          exact ⟨e1, e2 ▸ Nat.lt_succ_self k, e3⟩
    · -- node j untouched by this step
      rw [RemoveUse_apply_ne _ _ _ _ hja, hj2]
      refine ⟨nj2, rfl, hsub, ?_⟩
      intro u
      rw [hiff u]
      constructor
      · rintro ⟨hmem, hnck⟩
        refine ⟨hmem, ?_⟩
        rintro ⟨e1, e2, e3⟩
        rcases Nat.lt_succ_iff_lt_or_eq.mp e2 with e2' | e2'
        · exact hnck ⟨e1, e2', e3⟩
        · rw [e2'] at e3
          exact hja (by rw [e3]; rfl)
      · rintro ⟨hmem, hnc⟩
        exact ⟨hmem, fun ⟨e1, e2, e3⟩ => hnc ⟨e1, Nat.lt_succ_of_lt e2, e3⟩⟩

/-- C3: destroying node `N` removes from each operand's use set exactly the
uses whose consumer is `N`: afterwards an operand `P` of `N` holds a use
`u` iff it held it before and `u`'s consumer is not `N` — in particular no
operand of `N` retains a back-reference to the destroyed node. -/
theorem destructor_removes_back_references (g : Graph) (N P : NodeId) (hWF : WFG g)
    (nN nP : Node) (hN : g N = some nN) (hP : g P = some nP) (hPop : P ∈ nN.operands) :
    ∀ nP2, (destructNode g N) P = some nP2 →
      ∀ u, u ∈ nP2.uses ↔ (u ∈ nP.uses ∧ u.node ≠ N) := by
  have hdes : ∀ j, destructNode g N j
      = if j = N then none else ((List.range nN.operands_as_outputs.length).foldl
          (fun gacc i2 => RemoveUse gacc ((nN.operands.get? i2).getD 0)
            ⟨N, i2, ((nN.operands_as_outputs.get? i2).getD ⟨0, 0⟩).index⟩) g) j := by
    intro j
    unfold destructNode
    rw [hN]
  intro nP2 hP2 u
  rw [hdes P] at hP2
  by_cases hPN : P = N
  · rw [if_pos hPN] at hP2
    cases hP2
  · rw [if_neg hPN] at hP2
    obtain ⟨nj2, hj2, -, hiff⟩ :=
      destruct_fold_uses g N nN hWF hN nN.operands_as_outputs.length (Nat.le_refl _) P nP hP
    rw [hj2] at hP2
    obtain rfl := Option.some.inj hP2
    rw [hiff u]
    constructor
    · rintro ⟨hmem, hnc⟩
      refine ⟨hmem, ?_⟩
      intro heN
      apply hnc
      obtain ⟨ncN, hncN, houtu⟩ := hWF.usesSound P nP u hP hmem
      rw [heN, hN] at hncN
      obtain rfl := Option.some.inj hncN
      have hlt : u.operand_index < nN.operands_as_outputs.length :=
        (List.get?_eq_some.mp houtu).1
      have hopu := hWF.pairing N nN u.operand_index _ hN houtu
      exact ⟨heN, hlt, hopu⟩
    · rintro ⟨hmem, hne⟩
      exact ⟨hmem, fun he => hne he.1⟩

/-- Witness for C3 on the demo graph: destroying consumer 3 (which uses
producer 0 twice) removes both of its back-references from node 0's use
set and keeps consumer 2's. -/
theorem destructor_removes_back_references_witness :
    (⟨3, 0, 0⟩ : Use) ∉ (((destructNode demoG 3) 0).getD default).uses ∧
    (⟨3, 1, 0⟩ : Use) ∉ (((destructNode demoG 3) 0).getD default).uses ∧
    (⟨2, 0, 0⟩ : Use) ∈ (((destructNode demoG 3) 0).getD default).uses := by
  have h := destructor_removes_back_references demoG 3 0 demoG_wf demoN3 demoN0 rfl rfl
    (by decide) (((destructNode demoG 3) 0).getD default) rfl
  refine ⟨?_, ?_, ?_⟩
  · intro hc
    exact ((h ⟨3, 0, 0⟩).mp hc).2 rfl
  · intro hc
    exact ((h ⟨3, 1, 0⟩).mp hc).2 rfl
  · exact (h ⟨2, 0, 0⟩).mpr ⟨by decide, by decide⟩

/-- C10: a node built by the lazy-shape constructor has `node_hash_` and
`hash_` equal to those of the eager constructor run with the empty
placeholder shape — the hashes are established before the shape is known,
and storing the computed shape into `shape_` leaves them unchanged, so the
full hash is independent of the value the shape function returns. -/
theorem lazy_shape_ctor_hash_independent (g : Graph) (self : NodeId) (op : String)
    (operands : List Output) (num_outputs hash_seed : Nat) (c : ShapeCache)
    (v1 v2 : XShape) (n0 n1 n2 : Node)
    (h0 : (constructNode g self op operands emptyXShape num_outputs hash_seed) self = some n0)
    (h1 : (constructNodeLazyShape g self op operands num_outputs hash_seed c v1).1 self = some n1)
    (h2 : (constructNodeLazyShape g self op operands num_outputs hash_seed c v2).1 self
      = some n2) :
    n1.node_hash = n0.node_hash ∧ n1.hash = n0.hash ∧
    n2.node_hash = n0.node_hash ∧ n2.hash = n0.hash ∧
    n1.shape = (GetOpShape c n0.hash v1).1 ∧ n2.shape = (GetOpShape c n0.hash v2).1 := by
  unfold constructNodeLazyShape at h1 h2
  simp only [h0, modifyNode_same, Option.map_some'] at h1 h2
  obtain rfl : _ = n1 := Option.some.inj h1
  obtain rfl : _ = n2 := Option.some.inj h2
  exact ⟨rfl, rfl, rfl, rfl, rfl, rfl⟩

/-- Witness for C10: the two lazy-built leaf nodes with different shape
function results share their hashes with the placeholder-shape eager node,
while storing the respective computed shapes. -/
theorem lazy_shape_ctor_hash_independent_witness :
    lazyDemoNode1.node_hash = lazyDemoBase.node_hash ∧
    lazyDemoNode1.hash = lazyDemoBase.hash ∧
    lazyDemoNode2.node_hash = lazyDemoBase.node_hash ∧
    lazyDemoNode2.hash = lazyDemoBase.hash := by
  obtain ⟨a, b, c, d, -, -⟩ :=
    lazy_shape_ctor_hash_independent (fun _ => none) 0 "aten::relu" [] 1 5 []
      (XShape.arr [1]) (XShape.arr [2, 2]) lazyDemoBase lazyDemoNode1 lazyDemoNode2
      rfl rfl rfl
  exact ⟨a, b, c, d⟩

end TorchXlaIR
